import Mathlib

/-!
Verification development for the Note Organizer App (src/noteApp.js and the
title-validation snippet in src/unnamed/part_000).

The JavaScript program is shallowly embedded: every repository operation
becomes a pure Lean function over an explicit note list, the interactive
re-prompt loops become functions over the list of successive raw inputs,
and the persisted JSON document becomes an explicit value threaded through
the storage functions.  JavaScript strings are modelled through their
character lists (`String.data`); `trim`, `toLowerCase` and `includes` are
embedded as executable char-list functions below.  The model follows the
ASCII behaviour of those primitives, which is all the program's own logic
depends on.
-/

deriving instance DecidableEq for Except

namespace NoteApp

/-- Whitespace recognised by the embedding of JavaScript
`String.prototype.trim` (the ASCII whitespace characters; `trim` also
strips some further Unicode space characters, which behave identically
here and are omitted). -/
def isJsWs (c : Char) : Bool :=
  c == ' ' || c == '\t' || c == '\n' || c == '\r' || c == '\x0b' || c == '\x0c'

/-- Drops leading and trailing whitespace characters from a character
list: the char-list level embedding of JavaScript `trim`. -/
def trimChars (cs : List Char) : List Char :=
  ((cs.dropWhile isJsWs).reverse.dropWhile isJsWs).reverse

/-- Embeds JavaScript `s.trim()`. -/
def jsTrim (s : String) : String :=
  ⟨trimChars s.data⟩

/-- Embeds JavaScript `s.toLowerCase()` (ASCII case mapping). -/
def jsToLower (s : String) : String :=
  ⟨s.data.map Char.toLower⟩

/-- Boolean prefix test on character lists (helper for the embedding of
`includes`). -/
def charsPrefix : List Char → List Char → Bool
  | [], _ => true
  | _ :: _, [] => false
  | a :: as, b :: bs => a == b && charsPrefix as bs

/-- Boolean substring test on character lists. -/
def charsInfix (needle : List Char) : List Char → Bool
  | [] => charsPrefix needle []
  | c :: t => charsPrefix needle (c :: t) || charsInfix needle t

/-- Embeds JavaScript `s.includes(sub)`: `sub` occurs as a contiguous
substring of `s` (every string includes the empty string). -/
def jsIncludes (s sub : String) : Bool :=
  charsInfix sub.data s.data

/-- A note record, as stored in `notes.json`: fields `title`, `body`,
`time_added` (src/noteApp.js line 82). -/
structure Note where
  title : String
  body : String
  time_added : String
deriving DecidableEq, Repr

/-- The first matching pass of `findNoteByTitle` (src/noteApp.js line 57):
the lower-cased title equals the lower-cased query. -/
def exactMatch (titleInput : String) (n : Note) : Bool :=
  jsToLower n.title == jsToLower titleInput

/-- The second matching pass of `findNoteByTitle` (src/noteApp.js line
58): the lower-cased title contains the lower-cased query as a
substring. -/
def subMatch (titleInput : String) (n : Note) : Bool :=
  jsIncludes (jsToLower n.title) (jsToLower titleInput)

/-- Embeds `findNoteByTitle` (src/noteApp.js lines 55-59): the first note
whose lower-cased title equals the lower-cased query, otherwise the first
note whose lower-cased title contains it, otherwise none (`find(...) ||
find(...)` returns the first operand when it produced a note). -/
def findNoteByTitle (notes : List Note) (titleInput : String) : Option Note :=
  match notes.find? (exactMatch titleInput) with
  | some n => some n
  | none => notes.find? (subMatch titleInput)

/-- The error outcomes the CLI operations report (printed messages in the
source; the spec's `ValidationError` covers `emptyInput`, `emptyBody` and
`duplicateTitle`, and its `NotFoundError` is `notFound`). -/
inductive CliError where
  | emptyInput
  | emptyBody
  | duplicateTitle
  | notFound
deriving DecidableEq, Repr

/-- Embeds the re-prompt loops of `addNote` (src/noteApp.js lines 66-69
and 77-80) and `getValidatedTitle` (src/unnamed/part_000 lines 3-13):
given the successive raw answers typed at the prompt, the loop returns
the first whose trim is non-empty; `none` models a session in which no
valid answer is ever typed (the loop does not return). -/
def firstValidInput (inputs : List String) : Option String :=
  (inputs.map jsTrim).find? (fun s => !(s == ""))

/-- Embeds `addNote` (src/noteApp.js lines 64-85): read a non-empty
trimmed title, reject a case-insensitive duplicate before the body is
even prompted for, read a non-empty trimmed body, append the new note.
`now` stands for `new Date().toISOString()`.  On success the result is
the new note list (the source then calls `saveNotes`; see `applyAdd`). -/
def addNote (notes : List Note) (titleInputs bodyInputs : List String)
    (now : String) : Option (Except CliError (List Note)) :=
  (firstValidInput titleInputs).bind fun title =>
    if notes.any (fun n => jsToLower n.title == jsToLower title) then
      some (Except.error CliError.duplicateTitle)
    else
      (firstValidInput bodyInputs).map fun body =>
        Except.ok (notes ++ [{ title := title, body := body, time_added := now }])

/-- Embeds `readNote` (src/noteApp.js lines 104-114): trim the query,
reject it when empty, otherwise report `findNoteByTitle`'s answer. -/
def readNote (notes : List Note) (input : String) : Except CliError Note :=
  if jsTrim input = "" then Except.error CliError.emptyInput
  else
    match findNoteByTitle notes (jsTrim input) with
    | none => Except.error CliError.notFound
    | some n => Except.ok n

/-- The single-pass predicate of `deleteNote`'s `findIndex` call
(src/noteApp.js lines 123-126): exact lower-cased equality or lower-cased
substring containment. -/
def deleteMatch (titleInput : String) (n : Note) : Bool :=
  exactMatch titleInput n || subMatch titleInput n

/-- Removes the first element satisfying `p` and returns it with the
remaining list: the embedding of `findIndex` followed by
`splice(index, 1)` (src/noteApp.js lines 123-130). -/
def removeFirst (p : Note → Bool) : List Note → Option (Note × List Note)
  | [] => none
  | n :: rest =>
    if p n then some (n, rest)
    else (removeFirst p rest).map fun r => (r.1, n :: r.2)

/-- Embeds `deleteNote` (src/noteApp.js lines 119-133): trim the query,
reject it when empty, remove the note at the first index matching
`deleteMatch`, returning the removed note and the remaining list. -/
def deleteNote (notes : List Note) (input : String) :
    Except CliError (Note × List Note) :=
  if jsTrim input = "" then Except.error CliError.emptyInput
  else
    match removeFirst (deleteMatch (jsTrim input)) notes with
    | none => Except.error CliError.notFound
    | some r => Except.ok r

/-- Replaces the body of the first element satisfying `p` (helper for the
embedding of `updateNote`'s in-place mutation). -/
def setBodyFirst (p : Note → Bool) (nb : String) : List Note → List Note
  | [] => []
  | n :: rest =>
    if p n then { n with body := nb } :: rest
    else n :: setBodyFirst p nb rest

/-- The in-place mutation step of `updateNote` (src/noteApp.js line 148).
In the source the note object returned by `findNoteByTitle` is aliased
into the array, so `note.body = newBody` rewrites the array element at
the position the successful find pass located: the first exact match
when the exact pass succeeded, otherwise the first substring match. -/
def resolvedSetBody (notes : List Note) (titleInput newBody : String) :
    List Note :=
  match notes.find? (exactMatch titleInput) with
  | some _ => setBodyFirst (exactMatch titleInput) newBody notes
  | none => setBodyFirst (subMatch titleInput) newBody notes

/-- Embeds `updateNote` (src/noteApp.js lines 138-151): trim the query,
reject it when empty, resolve the target via `findNoteByTitle`, reject an
empty trimmed new body, then assign the body through
`resolvedSetBody`. -/
def updateNote (notes : List Note) (input newBodyInput : String) :
    Except CliError (Note × List Note) :=
  if jsTrim input = "" then Except.error CliError.emptyInput
  else
    match findNoteByTitle notes (jsTrim input) with
    | none => Except.error CliError.notFound
    | some note =>
      if jsTrim newBodyInput = "" then Except.error CliError.emptyBody
      else
        Except.ok ({ note with body := jsTrim newBodyInput },
          resolvedSetBody notes (jsTrim input) (jsTrim newBodyInput))

/-- Embeds the menu dispatch of `main` (src/noteApp.js lines 168-178):
the typed choice is trimmed and compared against the six menu numbers;
anything else is an invalid choice (`none`). -/
inductive MenuCmd where
  | add
  | list
  | read
  | delete
  | update
  | exit
deriving DecidableEq, Repr

/-- Parses a raw menu answer (src/noteApp.js line 168). -/
def parseMenuChoice (input : String) : Option MenuCmd :=
  match jsTrim input with
  | "1" => some MenuCmd.add
  | "2" => some MenuCmd.list
  | "3" => some MenuCmd.read
  | "4" => some MenuCmd.delete
  | "5" => some MenuCmd.update
  | "6" => some MenuCmd.exit
  | _ => none

/-- JSON values, modelling what `JSON.parse` can produce (numbers are
modelled as integers; no claim depends on fractional values). -/
inductive Json where
  | null
  | bool (b : Bool)
  | num (n : Int)
  | str (s : String)
  | arr (elems : List Json)
  | obj (fields : List (String × Json))

/-- The persisted document's text, represented by its `JSON.parse`
outcome: `wellFormed j` stands for any text that `JSON.parse` accepts
with value `j`, and `malformed` for any text it throws on (the same
`catch` in the source also covers a file that cannot be read at all). -/
inductive StoredDoc where
  | wellFormed (j : Json)
  | malformed

/-- The fatal storage failure: the source prints the error and calls
`process.exit(1)` (src/noteApp.js lines 30-33 and 43-46), so no value is
ever returned to the caller on this path. -/
inductive StorageError where
  | fatal
deriving DecidableEq, Repr

/-- Initial notes for the first run (src/noteApp.js line 15). -/
def initialNotes : List Note := []

/-- Serializes one note the way `JSON.stringify` lays it out. -/
def encodeNote (n : Note) : Json :=
  Json.obj [("title", Json.str n.title), ("body", Json.str n.body),
    ("time_added", Json.str n.time_added)]

/-- Serializes a note list the way `saveNotes` writes it. -/
def encodeNotes (ns : List Note) : Json :=
  Json.arr (ns.map encodeNote)

/-- Embeds `loadNotes` (src/noteApp.js lines 21-34) over the persisted
document (`none` = the file does not exist).  A missing file is
initialized to the serialized `initialNotes` and that value returned; an
existing file is read and `JSON.parse`d, the parsed value being returned
with no validation of its shape; a file that cannot be read or parsed is
the fatal branch.  The result pairs the value handed to the caller with
the document as it stands afterwards. -/
def loadNotes : Option StoredDoc → Except StorageError (Json × StoredDoc)
  | none => Except.ok (encodeNotes initialNotes, StoredDoc.wellFormed (encodeNotes initialNotes))
  | some (StoredDoc.wellFormed j) => Except.ok (j, StoredDoc.wellFormed j)
  | some StoredDoc.malformed => Except.error StorageError.fatal

/-- Modelled from the spec: one object of the expected persisted
structure, having text fields `title`, `body` and `time_added` (the spec
asks for ISO-8601 text in `time_added`; the check here only requires
text, and any stricter reading would only shrink the set of conforming
documents). -/
def isNoteObj : Json → Bool
  | Json.obj fields =>
    (match fields.lookup "title" with | some (Json.str _) => true | _ => false) &&
    (match fields.lookup "body" with | some (Json.str _) => true | _ => false) &&
    (match fields.lookup "time_added" with | some (Json.str _) => true | _ => false)
  | _ => false

/-- Modelled from the spec: the expected structure of the persisted
document, an array of well-shaped note objects. -/
def expectedStructure : Json → Bool
  | Json.arr elems => elems.all isNoteObj
  | _ => false

/-- A repository state: the in-memory note list together with the
denotation of the persisted document.  `saveNotes` (src/noteApp.js lines
40-47) overwrites the document with the serialized list, and the
operations call it exactly on their success paths. -/
structure RepoState where
  notes : List Note
  disk : List Note
deriving DecidableEq, Repr

/-- One `addNote` interaction applied to a full repository state: on
success the mutated list is also persisted, on a validation failure
nothing changes (the source returns before `saveNotes` is reached). -/
def applyAdd (s : RepoState) (titleInputs bodyInputs : List String)
    (now : String) : Option RepoState :=
  (addNote s.notes titleInputs bodyInputs now).map fun r =>
    match r with
    | Except.ok ns => { notes := ns, disk := ns }
    | Except.error _ => s

/-- The note-list states reachable from the empty repository by
successful add, update and delete operations. -/
inductive Reachable : List Note → Prop
  | nil : Reachable []
  | add {ns ns' : List Note} {tIns bIns : List String} {now : String} :
      Reachable ns → addNote ns tIns bIns now = some (Except.ok ns') →
      Reachable ns'
  | update {ns ns' : List Note} {i b : String} {n : Note} :
      Reachable ns → updateNote ns i b = Except.ok (n, ns') →
      Reachable ns'
  | delete {ns ns' : List Note} {i : String} {n : Note} :
      Reachable ns → deleteNote ns i = Except.ok (n, ns') →
      Reachable ns'

/-- The lower-cased titles of a note list, in order. -/
def lowerTitles (ns : List Note) : List String :=
  ns.map fun n => jsToLower n.title

/-- No two notes of the list have case-insensitively equal titles. -/
def TitlesDistinct (ns : List Note) : Prop :=
  (lowerTitles ns).Nodup

/-- A string neither starts nor ends with a whitespace character. -/
def NoEdgeWs (s : String) : Prop :=
  (∀ c, s.data.head? = some c → isJsWs c = false) ∧
  (∀ c, s.data.getLast? = some c → isJsWs c = false)

/-- The empty needle occurs in every haystack (as in JavaScript
`includes`). -/
theorem charsInfix_nil (hay : List Char) : charsInfix [] hay = true := by
  cases hay <;> simp [charsInfix, charsPrefix]

/-- Every character list is a prefix of itself. -/
theorem charsPrefix_self (l : List Char) : charsPrefix l l = true := by
  induction l with
  | nil => rfl
  | cons a as ih => simp [charsPrefix, ih]

/-- Every character list occurs in itself. -/
theorem charsInfix_self (l : List Char) : charsInfix l l = true := by
  cases l with
  | nil => rfl
  | cons a as => simp [charsInfix, charsPrefix_self]

/-- An exact title match is in particular a substring match. -/
theorem subMatch_of_exactMatch {q : String} {n : Note}
    (h : exactMatch q n = true) : subMatch q n = true := by
  have he : jsToLower n.title = jsToLower q := by
    simpa [exactMatch] using h
  simp [subMatch, jsIncludes, he, charsInfix_self]

/-- Lower-casing sends only the empty string to the empty string. -/
theorem jsToLower_ne_empty {s : String} (h : s ≠ "") : jsToLower s ≠ "" := by
  intro hc
  apply h
  have hdata : (jsToLower s).data = ("" : String).data := by rw [hc]
  have : s.data.map Char.toLower = [] := hdata
  have hnil : s.data = [] := by
    exact List.map_eq_nil_iff.mp this
  exact String.ext hnil

/-- `find?` over a list whose members all fail the predicate, extended by
one passing element, returns that element. -/
theorem find?_append_last {p : Note → Bool} {l : List Note} {a : Note}
    (hall : ∀ x ∈ l, p x = false) (ha : p a = true) :
    (l ++ [a]).find? p = some a := by
  rw [List.find?_append]
  have h1 : l.find? p = none := by
    rw [List.find?_eq_none]
    intro x hx
    simp [hall x hx]
  rw [h1, List.find?_cons_of_pos _ ha]
  rfl

/-- Structural characterization of `removeFirst`: a successful removal
splits the list at the first index satisfying `p`. -/
theorem removeFirst_decomp {p : Note → Bool} {l : List Note} {n : Note}
    {rest : List Note} (h : removeFirst p l = some (n, rest)) :
    ∃ pre post, l = pre ++ n :: post ∧ rest = pre ++ post ∧
      p n = true ∧ ∀ m ∈ pre, p m = false := by
  induction l generalizing rest with
  | nil => simp [removeFirst] at h
  | cons a t ih =>
    by_cases hp : p a = true
    · refine ⟨[], t, ?_⟩
      simp only [removeFirst, if_pos hp, Option.some.injEq, Prod.mk.injEq] at h
      simp [← h.1, h.2, hp]
    · have hp' : p a = false := by
        cases hpa : p a
        · rfl
        · exact absurd hpa hp
      simp only [removeFirst, if_neg hp] at h
      cases hrec : removeFirst p t with
      | none => rw [hrec] at h; simp at h
      | some r =>
        rw [hrec] at h
        simp only [Option.map, Option.some.injEq, Prod.mk.injEq] at h
        obtain ⟨hn, hrest⟩ := h
        obtain ⟨pre, post, hl, hr, hpn, hpre⟩ :=
          ih (show removeFirst p t = some (n, r.2) by rw [hrec, ← hn])
        refine ⟨a :: pre, post, ?_, ?_, hpn, ?_⟩
        · simp [hl]
        · rw [← hrest, hr]; simp
        · intro m hm
          rcases List.mem_cons.mp hm with hma | hmp
          · rw [hma]; exact hp'
          · exact hpre m hmp

/-- Structural characterization of `setBodyFirst` at a successful
`find?`: exactly the first `p`-element has its body replaced. -/
theorem setBodyFirst_decomp {p : Note → Bool} {l : List Note} {m : Note}
    (nb : String) (h : l.find? p = some m) :
    ∃ pre post, l = pre ++ m :: post ∧ (∀ x ∈ pre, p x = false) ∧
      p m = true ∧
      setBodyFirst p nb l = pre ++ ({ m with body := nb }) :: post := by
  induction l with
  | nil => simp [List.find?] at h
  | cons a t ih =>
    by_cases hp : p a = true
    · rw [List.find?_cons_of_pos _ hp, Option.some.injEq] at h
      subst h
      exact ⟨[], t, by simp, by simp, hp, by simp [setBodyFirst, hp]⟩
    · have hp' : p a = false := by
        cases hpa : p a
        · rfl
        · exact absurd hpa hp
      rw [List.find?_cons_of_neg _ hp] at h
      obtain ⟨pre, post, hl, hpre, hpm, hset⟩ := ih h
      refine ⟨a :: pre, post, by simp [hl], ?_, hpm, ?_⟩
      · intro x hx
        rcases List.mem_cons.mp hx with hxa | hxp
        · rw [hxa]; exact hp'
        · exact hpre x hxp
      · simp [setBodyFirst, hp', hset]

/-- The head of a non-empty `dropWhile` result fails the predicate. -/
theorem dropWhile_head_false {p : Char → Bool} {l : List Char} {a : Char}
    {t : List Char} (h : l.dropWhile p = a :: t) : p a = false := by
  induction l with
  | nil => simp [List.dropWhile] at h
  | cons x xs ih =>
    rw [List.dropWhile_cons] at h
    by_cases hp : p x = true
    · rw [if_pos hp] at h
      exact ih h
    · rw [if_neg hp] at h
      cases h
      cases hpa : p a
      · rfl
      · exact absurd hpa hp

/-- A non-empty `dropWhile` result ends where the original list ends. -/
theorem dropWhile_getLast? {p : Char → Bool} {l : List Char}
    (h : l.dropWhile p ≠ []) : (l.dropWhile p).getLast? = l.getLast? := by
  induction l with
  | nil => simp [List.dropWhile] at h
  | cons x xs ih =>
    rw [List.dropWhile_cons]
    by_cases hp : p x = true
    · rw [List.dropWhile_cons, if_pos hp] at h
      rw [if_pos hp, ih h]
      cases hxs : xs with
      | nil => rw [hxs] at h; simp [List.dropWhile] at h
      | cons b bs => rw [List.getLast?_cons_cons]
    · rw [if_neg hp]

/-- The trimmed form of a string has no leading or trailing
whitespace. -/
theorem noEdgeWs_jsTrim (s : String) : NoEdgeWs (jsTrim s) := by
  have hdata : (jsTrim s).data = trimChars s.data := rfl
  constructor
  · intro c hc
    rw [hdata] at hc
    unfold trimChars at hc
    rw [List.head?_reverse] at hc
    have hne : (s.data.dropWhile isJsWs).reverse.dropWhile isJsWs ≠ [] := by
      intro hnil
      rw [hnil] at hc
      simp at hc
    rw [dropWhile_getLast? hne, List.getLast?_reverse] at hc
    cases hd : s.data.dropWhile isJsWs with
    | nil => rw [hd] at hc; simp at hc
    | cons a t =>
      rw [hd] at hc
      simp only [List.head?] at hc
      cases hc
      exact dropWhile_head_false hd
  · intro c hc
    rw [hdata] at hc
    unfold trimChars at hc
    rw [List.getLast?_reverse] at hc
    cases hr : (s.data.dropWhile isJsWs).reverse.dropWhile isJsWs with
    | nil => rw [hr] at hc; simp at hc
    | cons a t =>
      rw [hr] at hc
      simp only [List.head?] at hc
      cases hc
      exact dropWhile_head_false hr

/-- Trimming a whitespace-only string yields the empty string. -/
theorem jsTrim_all_ws {s : String} (h : ∀ c ∈ s.data, isJsWs c = true) :
    jsTrim s = "" := by
  apply String.ext
  show trimChars s.data = ("" : String).data
  unfold trimChars
  rw [List.dropWhile_eq_nil_iff.mpr h]
  rfl

/-- A value produced by a re-prompt loop is non-empty and is the trim of
one of the raw answers. -/
theorem firstValidInput_some {inputs : List String} {s : String}
    (h : firstValidInput inputs = some s) :
    s ≠ "" ∧ ∃ raw ∈ inputs, s = jsTrim raw := by
  constructor
  · have hp := List.find?_some h
    rw [Bool.not_eq_true'] at hp
    exact beq_eq_false_iff_ne.mp hp
  · have hm := List.mem_of_find?_eq_some h
    obtain ⟨raw, hraw, heq⟩ := List.mem_map.mp hm
    exact ⟨raw, hraw, heq.symm⟩

/-- Inversion of a successful `addNote`: both loops produced a value, the
title is fresh, and the note was appended. -/
theorem addNote_ok {ns ns' : List Note} {tIns bIns : List String}
    {now : String} (h : addNote ns tIns bIns now = some (Except.ok ns')) :
    ∃ t b, firstValidInput tIns = some t ∧ firstValidInput bIns = some b ∧
      (∀ n ∈ ns, jsToLower n.title ≠ jsToLower t) ∧
      ns' = ns ++ [{ title := t, body := b, time_added := now }] := by
  unfold addNote at h
  cases ht : firstValidInput tIns with
  | none => rw [ht] at h; simp at h
  | some t =>
    rw [ht] at h
    simp only [Option.bind] at h
    by_cases hdup : ns.any (fun n => jsToLower n.title == jsToLower t) = true
    · rw [if_pos hdup] at h
      simp at h
    · rw [if_neg hdup] at h
      cases hb : firstValidInput bIns with
      | none => rw [hb] at h; simp at h
      | some b =>
        rw [hb] at h
        simp only [Option.map, Option.some.injEq, Except.ok.injEq] at h
        refine ⟨t, b, rfl, rfl, ?_, h.symm⟩
        intro n hn
        have hany : ns.any (fun n => jsToLower n.title == jsToLower t) = false := by
          cases ha : ns.any (fun n => jsToLower n.title == jsToLower t)
          · rfl
          · exact absurd ha hdup
        have := List.any_eq_false.mp hany n hn
        intro hcontra
        exact this (by simp [hcontra])

/-- Inversion of a successful `deleteNote`: the query trimmed non-empty
and the note at the first matching index was removed. -/
theorem deleteNote_ok {ns : List Note} {i : String} {n : Note}
    {rest : List Note} (h : deleteNote ns i = Except.ok (n, rest)) :
    jsTrim i ≠ "" ∧ deleteMatch (jsTrim i) n = true ∧
    ∃ pre post, ns = pre ++ n :: post ∧ rest = pre ++ post ∧
      ∀ m ∈ pre, deleteMatch (jsTrim i) m = false := by
  unfold deleteNote at h
  by_cases hq : jsTrim i = ""
  · rw [if_pos hq] at h; simp at h
  · rw [if_neg hq] at h
    cases hr : removeFirst (deleteMatch (jsTrim i)) ns with
    | none => rw [hr] at h; simp at h
    | some r =>
      rw [hr] at h
      simp only [Except.ok.injEq] at h
      subst h
      obtain ⟨pre, post, hl, hrest, hpn, hpre⟩ := removeFirst_decomp hr
      exact ⟨hq, hpn, pre, post, hl, hrest, hpre⟩

/-- Structural characterization of `resolvedSetBody` at a successful
`findNoteByTitle`: exactly the resolved occurrence has its body
replaced. -/
theorem resolvedSetBody_decomp {notes : List Note} {q : String}
    {note : Note} (nb : String)
    (hf : findNoteByTitle notes q = some note) :
    ∃ pre post, notes = pre ++ note :: post ∧
      resolvedSetBody notes q nb = pre ++ ({ note with body := nb }) :: post := by
  unfold findNoteByTitle at hf
  unfold resolvedSetBody
  cases he : notes.find? (exactMatch q) with
  | some m =>
    rw [he] at hf
    simp only [Option.some.injEq] at hf
    subst hf
    obtain ⟨pre, post, hl, hpre, hpm, hset⟩ := setBodyFirst_decomp nb he
    exact ⟨pre, post, hl, hset⟩
  | none =>
    rw [he] at hf
    obtain ⟨pre, post, hl, hpre, hpm, hset⟩ := setBodyFirst_decomp nb hf
    exact ⟨pre, post, hl, hset⟩

/-- Inversion of a successful `updateNote`: the resolved note is the one
`findNoteByTitle` returns, and the result replaces exactly that
occurrence with a body-updated copy. -/
theorem updateNote_ok {ns : List Note} {i b : String} {n' : Note}
    {ns' : List Note} (h : updateNote ns i b = Except.ok (n', ns')) :
    jsTrim i ≠ "" ∧ jsTrim b ≠ "" ∧
    ∃ pre old post, ns = pre ++ old :: post ∧
      findNoteByTitle ns (jsTrim i) = some old ∧
      n' = { old with body := jsTrim b } ∧
      ns' = pre ++ n' :: post := by
  unfold updateNote at h
  split at h
  · exact absurd h (by simp)
  · rename_i hq
    split at h
    · exact absurd h (by simp)
    · rename_i note hf
      split at h
      · exact absurd h (by simp)
      · rename_i hb
        simp only [Except.ok.injEq, Prod.mk.injEq] at h
        obtain ⟨hn', hns'⟩ := h
        obtain ⟨pre, post, hl, hset⟩ := resolvedSetBody_decomp (jsTrim b) hf
        refine ⟨hq, hb, pre, note, post, hl, hf, hn'.symm, ?_⟩
        rw [← hns', hset, hn']

/-- When every note fails both matching passes, `findNoteByTitle` returns
none. -/
theorem findNoteByTitle_eq_none {notes : List Note} {q : String}
    (h : ∀ m ∈ notes, deleteMatch q m = false) :
    findNoteByTitle notes q = none := by
  unfold findNoteByTitle
  have hex : notes.find? (exactMatch q) = none := by
    rw [List.find?_eq_none]
    intro x hx
    have := (Bool.or_eq_false_iff.mp (h x hx)).1
    simp [this]
  rw [hex, List.find?_eq_none]
  intro x hx
  have := (Bool.or_eq_false_iff.mp (h x hx)).2
  simp [this]

/-- A successful add preserves pairwise-distinct lower-cased titles. -/
theorem addNote_preserves_distinct {ns ns' : List Note}
    {tIns bIns : List String} {now : String} (hd : TitlesDistinct ns)
    (h : addNote ns tIns bIns now = some (Except.ok ns')) :
    TitlesDistinct ns' := by
  obtain ⟨t, b, ht, hb, hfresh, hns'⟩ := addNote_ok h
  subst hns'
  unfold TitlesDistinct lowerTitles at hd ⊢
  rw [List.map_append, List.nodup_append]
  refine ⟨hd, by simp, ?_⟩
  simp only [List.map, List.disjoint_singleton]
  intro hc
  obtain ⟨n, hn, heq⟩ := List.mem_map.mp hc
  exact hfresh n hn heq

/-- A successful update preserves the lower-cased title list, hence
distinctness. -/
theorem updateNote_preserves_distinct {ns ns' : List Note} {i b : String}
    {n : Note} (hd : TitlesDistinct ns)
    (h : updateNote ns i b = Except.ok (n, ns')) : TitlesDistinct ns' := by
  obtain ⟨hq, hb, pre, old, post, hl, hf, hn', hns'⟩ := updateNote_ok h
  subst hns'
  subst hn'
  subst hl
  unfold TitlesDistinct lowerTitles at hd ⊢
  simpa using hd

/-- A successful delete leaves a sublist, hence preserves
distinctness. -/
theorem deleteNote_preserves_distinct {ns : List Note} {i : String}
    {n : Note} {rest : List Note} (hd : TitlesDistinct ns)
    (h : deleteNote ns i = Except.ok (n, rest)) : TitlesDistinct rest := by
  obtain ⟨hq, hpn, pre, post, hl, hrest, hpre⟩ := deleteNote_ok h
  subst hl
  subst hrest
  have hsub : (pre ++ post).Sublist (pre ++ n :: post) :=
    List.Sublist.append_left (List.sublist_cons_self n post) pre
  exact List.Nodup.sublist (List.Sublist.map _ hsub) hd

/-- Claim C1, counterexample: with two notes whose titles contain the
query, a successful `delete("trip")` removes only the first, and
`findByTitle("trip")` on the resulting state still returns a note — not
none as the claim demands for every state. -/
theorem c1_counterexample :
    deleteNote [⟨"Trip A", "pack", "t1"⟩, ⟨"Trip B", "swim", "t2"⟩] "trip"
      = Except.ok (⟨"Trip A", "pack", "t1"⟩, [⟨"Trip B", "swim", "t2"⟩]) ∧
    findNoteByTitle [⟨"Trip B", "swim", "t2"⟩] "trip"
      = some ⟨"Trip B", "swim", "t2"⟩ ∧
    findNoteByTitle [⟨"Trip B", "swim", "t2"⟩] "trip" ≠ none := by
  refine ⟨by decide, by decide, by decide⟩

/-- Claim C1 as amended: when the note removed by a successful
`delete(query)` was the only note matching the query (exactly one note
of the prior state passes the exact-or-substring scan), `findByTitle`
on the same trimmed query over the resulting state returns none. -/
theorem c1_delete_unique_then_find_none
    (notes : List Note) (input : String) (n : Note) (rest : List Note)
    (hdel : deleteNote notes input = Except.ok (n, rest))
    (huniq : notes.countP (deleteMatch (jsTrim input)) = 1) :
    findNoteByTitle rest (jsTrim input) = none := by
  obtain ⟨hq, hpn, pre, post, hl, hrest, hpre⟩ := deleteNote_ok hdel
  have hzero : pre.countP (deleteMatch (jsTrim input)) = 0 ∧
      post.countP (deleteMatch (jsTrim input)) = 0 := by
    rw [hl, List.countP_append, List.countP_cons_of_pos _ _ hpn] at huniq
    omega
  apply findNoteByTitle_eq_none
  intro m hm
  rw [hrest] at hm
  rcases List.mem_append.mp hm with hmp | hmp
  · have hnot := List.countP_eq_zero.mp hzero.1 m hmp
    cases hx : deleteMatch (jsTrim input) m
    · rfl
    · exact absurd hx hnot
  · have hnot := List.countP_eq_zero.mp hzero.2 m hmp
    cases hx : deleteMatch (jsTrim input) m
    · rfl
    · exact absurd hx hnot

/-- Witness for C1's amended theorem at the spec's own scenario: add
"Trip Plan"/"pack bags", delete "trip", then find "trip" returns
none. -/
theorem c1_witness : findNoteByTitle [] (jsTrim "trip") = none :=
  c1_delete_unique_then_find_none
    [⟨"Trip Plan", "pack bags", "t1"⟩] "trip"
    ⟨"Trip Plan", "pack bags", "t1"⟩ [] (by decide) (by decide)

/-- Claim C2, counterexample: with state ["Shopping List", "Shopping"],
`findByTitle("shopping")` (the resolution update uses) returns the exact
match "Shopping", while `delete("shopping")` removes "Shopping List",
the first exact-or-substring match in index order — a different note. -/
theorem c2_counterexample :
    findNoteByTitle [⟨"Shopping List", "bread", "t2"⟩,
        ⟨"Shopping", "milk, eggs", "t1"⟩] "shopping"
      = some ⟨"Shopping", "milk, eggs", "t1"⟩ ∧
    deleteNote [⟨"Shopping List", "bread", "t2"⟩,
        ⟨"Shopping", "milk, eggs", "t1"⟩] "shopping"
      = Except.ok (⟨"Shopping List", "bread", "t2"⟩,
          [⟨"Shopping", "milk, eggs", "t1"⟩]) ∧
    (⟨"Shopping List", "bread", "t2"⟩ : Note)
      ≠ ⟨"Shopping", "milk, eggs", "t1"⟩ := by
  refine ⟨by decide, by decide, by decide⟩

/-- Claim C2 as amended: a successful `delete(query)` removes the note at
the first index whose lower-cased title equals or contains the
lower-cased trimmed query (which may differ from the note `findByTitle`,
and hence update, resolves, since that one prefers an exact match
anywhere in the list). -/
theorem c2_delete_removes_first_scan_match
    (notes : List Note) (input : String) (n : Note) (rest : List Note)
    (h : deleteNote notes input = Except.ok (n, rest)) :
    deleteMatch (jsTrim input) n = true ∧
    ∃ pre post, notes = pre ++ n :: post ∧ rest = pre ++ post ∧
      ∀ m ∈ pre, deleteMatch (jsTrim input) m = false := by
  obtain ⟨hq, hpn, pre, post, hl, hrest, hpre⟩ := deleteNote_ok h
  exact ⟨hpn, pre, post, hl, hrest, hpre⟩

/-- Witness for C2's amended theorem at a concrete delete. -/
theorem c2_witness :
    deleteMatch (jsTrim "trip") ⟨"Trip Plan", "pack bags", "t1"⟩ = true ∧
    ∃ pre post,
      [(⟨"Trip Plan", "pack bags", "t1"⟩ : Note)]
        = pre ++ ⟨"Trip Plan", "pack bags", "t1"⟩ :: post ∧
      ([] : List Note) = pre ++ post ∧
      ∀ m ∈ pre, deleteMatch (jsTrim "trip") m = false :=
  c2_delete_removes_first_scan_match
    [⟨"Trip Plan", "pack bags", "t1"⟩] "trip"
    ⟨"Trip Plan", "pack bags", "t1"⟩ [] (by decide)

/-- Claim C3, counterexample: on a non-empty list, `findByTitle` with the
empty query returns the first note, not none — every title contains the
empty substring, and the function itself has no empty-query guard. -/
theorem c3_counterexample :
    findNoteByTitle [⟨"Alpha", "x", "t"⟩] "" = some ⟨"Alpha", "x", "t"⟩ ∧
    findNoteByTitle [⟨"Alpha", "x", "t"⟩] "" ≠ none := by
  refine ⟨by decide, by decide⟩

/-- Claim C3 as amended: `findNoteByTitle` applied to the empty query
returns the head of the list whenever no stored title is itself empty
(none only for the empty list); the empty-query guard lives in the CLI
callers, which reject an input that trims to empty before searching. -/
theorem c3_find_empty_query :
    (∀ notes : List Note, (∀ n ∈ notes, n.title ≠ "") →
      findNoteByTitle notes "" = notes.head?)
  ∧ (∀ (notes : List Note) (input : String), jsTrim input = "" →
      readNote notes input = Except.error CliError.emptyInput) := by
  constructor
  · intro notes hne
    unfold findNoteByTitle
    have hex : notes.find? (exactMatch "") = none := by
      rw [List.find?_eq_none]
      intro n hn
      have hlow : jsToLower n.title ≠ "" := jsToLower_ne_empty (hne n hn)
      have h0 : jsToLower "" = "" := rfl
      have hne' : jsToLower n.title ≠ jsToLower "" := by rw [h0]; exact hlow
      simp [exactMatch, beq_eq_false_iff_ne.mpr hne']
    rw [hex]
    cases notes with
    | nil => rfl
    | cons a t =>
      have hsub : subMatch "" a = true := charsInfix_nil _
      rw [List.find?_cons_of_pos t hsub]
      rfl
  · intro notes input h
    unfold readNote
    rw [if_pos h]

/-- Witness for C3's amended theorem at concrete inputs. -/
theorem c3_witness :
    findNoteByTitle [⟨"Alpha", "x", "t"⟩] "" = some ⟨"Alpha", "x", "t"⟩ ∧
    readNote [⟨"Alpha", "x", "t"⟩] " \t " = Except.error CliError.emptyInput :=
  ⟨c3_find_empty_query.1 [⟨"Alpha", "x", "t"⟩] (by decide),
   c3_find_empty_query.2 [⟨"Alpha", "x", "t"⟩] " \t " (by decide)⟩

/-- Claim C4, counterexample: the document holding the text "42" exists
and is well-formed JSON, yet is not the expected structure (an array of
note objects); `load()` nevertheless succeeds and hands the value to the
caller instead of failing with a storage error. -/
theorem c4_counterexample :
    loadNotes (some (StoredDoc.wellFormed (Json.num 42)))
      = Except.ok (Json.num 42, StoredDoc.wellFormed (Json.num 42)) ∧
    expectedStructure (Json.num 42) = false :=
  ⟨rfl, rfl⟩

/-- Claim C4 as amended: `load()` fails (fatally, modelling the
report-and-exit path) exactly when the document cannot be read or is not
syntactically valid JSON; any syntactically valid document, of the
expected structure or not, is returned to the caller unvalidated, and a
missing document is initialized to the serialized empty list. -/
theorem c4_load_checks_syntax_only :
    (∀ j : Json, loadNotes (some (StoredDoc.wellFormed j))
        = Except.ok (j, StoredDoc.wellFormed j))
  ∧ loadNotes (some StoredDoc.malformed) = Except.error StorageError.fatal
  ∧ loadNotes none
      = Except.ok (encodeNotes initialNotes,
          StoredDoc.wellFormed (encodeNotes initialNotes)) :=
  ⟨fun _ => rfl, rfl, rfl⟩

/-- Claim C5: for a non-empty query, `findNoteByTitle` is sound (a
returned note is a stored note matching exactly or by substring),
returns the first case-insensitive exact match when one exists, falls
back to the first case-insensitive substring match in encounter order
when no exact match exists, returns none when no title contains the
query, and on the spec's scenario (add "Shopping" then "Shopping List")
resolves "shopping" to the exact-match "Shopping" note. -/
theorem c5_findNoteByTitle_correct (notes : List Note) (query : String)
    (_hq : query ≠ "") :
    (∀ m, findNoteByTitle notes query = some m →
      m ∈ notes ∧ (exactMatch query m = true ∨ subMatch query m = true))
  ∧ ((∃ n ∈ notes, exactMatch query n = true) →
      ∃ pre m post, notes = pre ++ m :: post ∧ exactMatch query m = true ∧
        (∀ x ∈ pre, exactMatch query x = false) ∧
        findNoteByTitle notes query = some m)
  ∧ ((∀ n ∈ notes, exactMatch query n = false) →
      ∀ pre m post, notes = pre ++ m :: post → subMatch query m = true →
        (∀ x ∈ pre, subMatch query x = false) →
        findNoteByTitle notes query = some m)
  ∧ ((∀ n ∈ notes, subMatch query n = false) →
      findNoteByTitle notes query = none)
  ∧ findNoteByTitle
      [⟨"Shopping", "milk, eggs", "t1"⟩, ⟨"Shopping List", "bread", "t2"⟩]
      "shopping" = some ⟨"Shopping", "milk, eggs", "t1"⟩ := by
  refine ⟨?_, ?_, ?_, ?_, by decide⟩
  · intro m hm
    unfold findNoteByTitle at hm
    cases he : notes.find? (exactMatch query) with
    | some x =>
      rw [he] at hm
      simp only [Option.some.injEq] at hm
      subst hm
      exact ⟨List.mem_of_find?_eq_some he, Or.inl (List.find?_some he)⟩
    | none =>
      rw [he] at hm
      exact ⟨List.mem_of_find?_eq_some hm, Or.inr (List.find?_some hm)⟩
  · intro hex
    cases he : notes.find? (exactMatch query) with
    | none =>
      obtain ⟨n, hn, hp⟩ := hex
      exact absurd hp (List.find?_eq_none.mp he n hn)
    | some m =>
      obtain ⟨hpm, pre, post, hl, hpre⟩ := List.find?_eq_some.mp he
      refine ⟨pre, m, post, hl, hpm, ?_, ?_⟩
      · intro x hx
        have hx' := hpre x hx
        rw [Bool.not_eq_true'] at hx'
        exact hx'
      · unfold findNoteByTitle
        rw [he]
  · intro hnoex pre m post hl hm hpre
    have hexnone : notes.find? (exactMatch query) = none := by
      rw [List.find?_eq_none]
      intro x hx
      simp [hnoex x hx]
    unfold findNoteByTitle
    rw [hexnone]
    apply List.find?_eq_some.mpr
    refine ⟨hm, pre, post, hl, ?_⟩
    intro a ha
    simp [hpre a ha]
  · intro hnosub
    apply findNoteByTitle_eq_none
    intro m hm
    unfold deleteMatch
    rw [Bool.or_eq_false_iff]
    refine ⟨?_, hnosub m hm⟩
    cases hx : exactMatch query m
    · rfl
    · exact absurd (subMatch_of_exactMatch hx) (by simp [hnosub m hm])

/-- Witness for C5's theorem at the spec's Shopping scenario. -/
theorem c5_witness :
    findNoteByTitle
      [⟨"Shopping", "milk, eggs", "t1"⟩, ⟨"Shopping List", "bread", "t2"⟩]
      "shopping" = some ⟨"Shopping", "milk, eggs", "t1"⟩ :=
  (c5_findNoteByTitle_correct
    [⟨"Shopping", "milk, eggs", "t1"⟩, ⟨"Shopping List", "bread", "t2"⟩]
    "shopping" (by decide)).2.2.2.2

/-- Claim C6: adding a title that case-insensitively duplicates a stored
title is rejected with the duplicate-title validation error before the
body is even read, and leaves both the note list and the persisted
document untouched. -/
theorem c6_add_duplicate_rejected
    (notes disk : List Note) (titleInputs bodyInputs : List String)
    (now t : String) (ht : firstValidInput titleInputs = some t)
    (hdup : ∃ n ∈ notes, jsToLower n.title = jsToLower t) :
    addNote notes titleInputs bodyInputs now
      = some (Except.error CliError.duplicateTitle) ∧
    applyAdd ⟨notes, disk⟩ titleInputs bodyInputs now = some ⟨notes, disk⟩ := by
  have hadd : addNote notes titleInputs bodyInputs now
      = some (Except.error CliError.duplicateTitle) := by
    unfold addNote
    rw [ht]
    have hany : notes.any (fun n => jsToLower n.title == jsToLower t) = true := by
      rw [List.any_eq_true]
      obtain ⟨n, hn, he⟩ := hdup
      exact ⟨n, hn, by simp [he]⟩
    simp [Option.bind, hany]
  refine ⟨hadd, ?_⟩
  unfold applyAdd
  dsimp only
  rw [hadd]
  rfl

/-- Witness for C6's theorem at a concrete duplicate add. -/
theorem c6_witness :
    addNote [⟨"Trip", "pack", "t1"⟩] [" tRiP "] ["zzz"] "t2"
      = some (Except.error CliError.duplicateTitle) ∧
    applyAdd ⟨[⟨"Trip", "pack", "t1"⟩], [⟨"Trip", "pack", "t1"⟩]⟩
      [" tRiP "] ["zzz"] "t2"
      = some ⟨[⟨"Trip", "pack", "t1"⟩], [⟨"Trip", "pack", "t1"⟩]⟩ :=
  c6_add_duplicate_rejected [⟨"Trip", "pack", "t1"⟩] [⟨"Trip", "pack", "t1"⟩]
    [" tRiP "] ["zzz"] "t2" "tRiP" (by decide)
    ⟨⟨"Trip", "pack", "t1"⟩, by decide, by decide⟩

/-- Claim C7: every state reachable from the empty repository has
pairwise case-insensitively distinct titles, and each of the three
mutating operations preserves that invariant on any state that has
it. -/
theorem c7_titles_distinct_invariant :
    (∀ ns, Reachable ns → TitlesDistinct ns)
  ∧ (∀ (ns : List Note) (tIns bIns : List String) (now : String)
        (ns' : List Note), TitlesDistinct ns →
        addNote ns tIns bIns now = some (Except.ok ns') → TitlesDistinct ns')
  ∧ (∀ (ns : List Note) (i b : String) (n : Note) (ns' : List Note),
        TitlesDistinct ns → updateNote ns i b = Except.ok (n, ns') →
        TitlesDistinct ns')
  ∧ (∀ (ns : List Note) (i : String) (n : Note) (rest : List Note),
        TitlesDistinct ns → deleteNote ns i = Except.ok (n, rest) →
        TitlesDistinct rest) := by
  refine ⟨?_, fun _ _ _ _ _ hd h => addNote_preserves_distinct hd h,
    fun _ _ _ _ _ hd h => updateNote_preserves_distinct hd h,
    fun _ _ _ _ hd h => deleteNote_preserves_distinct hd h⟩
  intro ns hr
  induction hr with
  | nil => simp [TitlesDistinct, lowerTitles]
  | add hprev hop ih => exact addNote_preserves_distinct ih hop
  | update hprev hop ih => exact updateNote_preserves_distinct ih hop
  | delete hprev hop ih => exact deleteNote_preserves_distinct ih hop

/-- Witness for C7's theorem: one concrete add from the empty state. -/
theorem c7_witness : TitlesDistinct [⟨"Trip", "pack", "t1"⟩] :=
  c7_titles_distinct_invariant.2.1 [] ["Trip"] ["pack"] "t1"
    [⟨"Trip", "pack", "t1"⟩] (by simp [TitlesDistinct, lowerTitles])
    (by decide)

/-- Claim C8: adding a fresh valid (title, body) pair and then querying
the title returns exactly the note that was added (the stored note
carries the trimmed title and body, and querying re-trims the same raw
title). -/
theorem c8_add_then_findable
    (notes : List Note) (tIn bIn now : String)
    (ht : jsTrim tIn ≠ "") (hb : jsTrim bIn ≠ "")
    (hfresh : ∀ n ∈ notes, jsToLower n.title ≠ jsToLower (jsTrim tIn)) :
    addNote notes [tIn] [bIn] now = some (Except.ok (notes ++
      [{ title := jsTrim tIn, body := jsTrim bIn, time_added := now }])) ∧
    readNote (notes ++
        [{ title := jsTrim tIn, body := jsTrim bIn, time_added := now }]) tIn
      = Except.ok { title := jsTrim tIn, body := jsTrim bIn, time_added := now } := by
  have hpt : (fun s => !(s == "")) (jsTrim tIn) = true := by
    show (!(jsTrim tIn == "")) = true
    rw [Bool.not_eq_true']
    exact beq_eq_false_iff_ne.mpr ht
  have hft : firstValidInput [tIn] = some (jsTrim tIn) := by
    unfold firstValidInput
    simp only [List.map]
    exact List.find?_cons_of_pos _ hpt
  have hpb : (fun s => !(s == "")) (jsTrim bIn) = true := by
    show (!(jsTrim bIn == "")) = true
    rw [Bool.not_eq_true']
    exact beq_eq_false_iff_ne.mpr hb
  have hfb : firstValidInput [bIn] = some (jsTrim bIn) := by
    unfold firstValidInput
    simp only [List.map]
    exact List.find?_cons_of_pos _ hpb
  have hany : notes.any
      (fun n => jsToLower n.title == jsToLower (jsTrim tIn)) = false :=
    List.any_eq_false.mpr fun n hn => by
      simp [beq_eq_false_iff_ne.mpr (hfresh n hn)]
  have hadd : addNote notes [tIn] [bIn] now = some (Except.ok (notes ++
      [{ title := jsTrim tIn, body := jsTrim bIn, time_added := now }])) := by
    unfold addNote
    rw [hft, hfb]
    simp [Option.bind, hany]
  refine ⟨hadd, ?_⟩
  have hall : ∀ x ∈ notes, exactMatch (jsTrim tIn) x = false := fun x hx => by
    show (jsToLower x.title == jsToLower (jsTrim tIn)) = false
    exact beq_eq_false_iff_ne.mpr (hfresh x hx)
  have hpa : exactMatch (jsTrim tIn)
      { title := jsTrim tIn, body := jsTrim bIn, time_added := now } = true := by
    show (jsToLower (jsTrim tIn) == jsToLower (jsTrim tIn)) = true
    exact beq_self_eq_true _
  have hfind : findNoteByTitle (notes ++
      [{ title := jsTrim tIn, body := jsTrim bIn, time_added := now }])
      (jsTrim tIn)
      = some { title := jsTrim tIn, body := jsTrim bIn, time_added := now } := by
    unfold findNoteByTitle
    rw [find?_append_last hall hpa]
  unfold readNote
  rw [if_neg ht, hfind]

/-- Witness for C8's theorem at a concrete add-then-read. -/
theorem c8_witness :
    addNote [] [" Trip "] [" pack "] "t1" = some (Except.ok ([] ++
      [{ title := jsTrim " Trip ", body := jsTrim " pack ", time_added := "t1" }])) ∧
    readNote ([] ++
        [{ title := jsTrim " Trip ", body := jsTrim " pack ", time_added := "t1" }]) " Trip "
      = Except.ok { title := jsTrim " Trip ", body := jsTrim " pack ", time_added := "t1" } :=
  c8_add_then_findable [] " Trip " " pack " "t1" (by decide) (by decide)
    (by simp)

/-- Claim C9: a successful update replaces only the resolved note's body
(with the trimmed new body); its title and creation time, every other
note, the order and the length of the list are unchanged. -/
theorem c9_update_frame
    (notes : List Note) (i b : String) (n' : Note) (notes' : List Note)
    (h : updateNote notes i b = Except.ok (n', notes')) :
    ∃ pre old post,
      notes = pre ++ old :: post ∧
      notes' = pre ++ n' :: post ∧
      findNoteByTitle notes (jsTrim i) = some old ∧
      n'.title = old.title ∧ n'.time_added = old.time_added ∧
      n'.body = jsTrim b ∧
      notes'.length = notes.length := by
  obtain ⟨hq, hb, pre, old, post, hl, hf, hn', hns'⟩ := updateNote_ok h
  refine ⟨pre, old, post, hl, hns', hf, ?_, ?_, ?_, ?_⟩
  · rw [hn']
  · rw [hn']
  · rw [hn']
  · rw [hns', hl]
    simp

/-- Witness for C9's theorem at a concrete update. -/
theorem c9_witness :
    ∃ pre old post,
      [(⟨"A", "b", "t"⟩ : Note)] = pre ++ old :: post ∧
      [(⟨"A", "new", "t"⟩ : Note)] = pre ++ ⟨"A", "new", "t"⟩ :: post ∧
      findNoteByTitle [⟨"A", "b", "t"⟩] (jsTrim " a ") = some old ∧
      (⟨"A", "new", "t"⟩ : Note).title = old.title ∧
      (⟨"A", "new", "t"⟩ : Note).time_added = old.time_added ∧
      (⟨"A", "new", "t"⟩ : Note).body = jsTrim " new " ∧
      [(⟨"A", "new", "t"⟩ : Note)].length = [(⟨"A", "b", "t"⟩ : Note)].length :=
  c9_update_frame [⟨"A", "b", "t"⟩] " a " " new " ⟨"A", "new", "t"⟩
    [⟨"A", "new", "t"⟩] (by decide)

/-- Claim C10: every CLI input is trimmed before validation and
matching — a value accepted by a prompt loop is non-empty with no edge
whitespace; a whitespace-only input trims to empty and is rejected by
every query prompt, skipped by the prompt loops, and is an invalid menu
choice; consequently every stored title and body in a reachable state
has no leading or trailing whitespace. -/
theorem c10_cli_inputs_trimmed :
    (∀ (inputs : List String) (s : String),
      firstValidInput inputs = some s → s ≠ "" ∧ NoEdgeWs s)
  ∧ (∀ s : String, (∀ c ∈ s.data, isJsWs c = true) →
      jsTrim s = ""
      ∧ (∀ notes, readNote notes s = Except.error CliError.emptyInput)
      ∧ (∀ notes, deleteNote notes s = Except.error CliError.emptyInput)
      ∧ (∀ notes b, updateNote notes s b = Except.error CliError.emptyInput)
      ∧ firstValidInput [s] = none
      ∧ parseMenuChoice s = none)
  ∧ (∀ ns, Reachable ns → ∀ n ∈ ns, NoEdgeWs n.title ∧ NoEdgeWs n.body) := by
  refine ⟨?_, ?_, ?_⟩
  · intro inputs s h
    obtain ⟨hne, raw, hraw, heq⟩ := firstValidInput_some h
    exact ⟨hne, heq ▸ noEdgeWs_jsTrim raw⟩
  · intro s hws
    have hts : jsTrim s = "" := jsTrim_all_ws hws
    refine ⟨hts, ?_, ?_, ?_, ?_, ?_⟩
    · intro notes
      unfold readNote
      rw [if_pos hts]
    · intro notes
      unfold deleteNote
      rw [if_pos hts]
    · intro notes b
      unfold updateNote
      rw [if_pos hts]
    · unfold firstValidInput
      simp only [List.map, hts]
      rfl
    · unfold parseMenuChoice
      rw [hts]
      rfl
  · intro ns hr
    induction hr with
    | nil =>
      intro n hn
      simp at hn
    | add hprev hop ih =>
      obtain ⟨t, b, ht, hb, hfresh, hns'⟩ := addNote_ok hop
      subst hns'
      intro n hn
      rcases List.mem_append.mp hn with hmem | hmem
      · exact ih n hmem
      · simp only [List.mem_singleton] at hmem
        subst hmem
        obtain ⟨ht1, rawt, hrawt, heqt⟩ := firstValidInput_some ht
        obtain ⟨hb1, rawb, hrawb, heqb⟩ := firstValidInput_some hb
        constructor
        · show NoEdgeWs t
          rw [heqt]
          exact noEdgeWs_jsTrim rawt
        · show NoEdgeWs b
          rw [heqb]
          exact noEdgeWs_jsTrim rawb
    | update hprev hop ih =>
      obtain ⟨hq, hb, pre, old, post, hl, hf, hn', hns'⟩ := updateNote_ok hop
      subst hns'
      intro m hm
      rcases List.mem_append.mp hm with hmem | hmem
      · exact ih m (by rw [hl]; exact List.mem_append.mpr (Or.inl hmem))
      · rcases List.mem_cons.mp hmem with hmem' | hmem'
        · subst hmem'
          rw [hn']
          constructor
          · show NoEdgeWs old.title
            exact (ih old (by
              rw [hl]
              exact List.mem_append.mpr (Or.inr (List.mem_cons_self _ _)))).1
          · show NoEdgeWs (jsTrim _)
            exact noEdgeWs_jsTrim _
        · exact ih m (by
            rw [hl]
            exact List.mem_append.mpr (Or.inr (List.mem_cons.mpr (Or.inr hmem'))))
    | delete hprev hop ih =>
      obtain ⟨hq, hpn, pre, post, hl, hrest, hpre⟩ := deleteNote_ok hop
      subst hrest
      intro m hm
      rcases List.mem_append.mp hm with hmem | hmem
      · exact ih m (by rw [hl]; exact List.mem_append.mpr (Or.inl hmem))
      · exact ih m (by
          rw [hl]
          exact List.mem_append.mpr (Or.inr (List.mem_cons.mpr (Or.inr hmem))))

/-- Witness for C10's theorem: a prompt loop output, a whitespace-only
input, and a one-add reachable state, all concrete. -/
theorem c10_witness :
    ("tRiP" ≠ "" ∧ NoEdgeWs "tRiP") ∧ jsTrim " \t " = "" ∧
    (NoEdgeWs (Note.title ⟨"Trip", "pack", "t1"⟩) ∧
     NoEdgeWs (Note.body ⟨"Trip", "pack", "t1"⟩)) :=
  ⟨c10_cli_inputs_trimmed.1 [" tRiP "] "tRiP" (by decide),
   (c10_cli_inputs_trimmed.2.1 " \t " (by decide)).1,
   c10_cli_inputs_trimmed.2.2 [⟨"Trip", "pack", "t1"⟩]
     (Reachable.add Reachable.nil
       (show addNote [] ["Trip"] ["pack"] "t1"
           = some (Except.ok [⟨"Trip", "pack", "t1"⟩]) by decide))
     ⟨"Trip", "pack", "t1"⟩ (by decide)⟩

end NoteApp
